import Mathlib

/-!
# Verification of the size-constrained encoding search of `optimize-images.js`

This file shallowly embeds the core of `src/optimize-images.js`: the function
`findBestEncode` together with its inner quality binary search and its outer
resolution-descent loop, and proves the specification's claims about it.

Modelling decisions, all taken from the source:

* The encoder (`encodeWebPBuffer`, which wraps `sharp(...).resize(...).webp(...)
  .toBuffer()`) is an external collaborator.  For one fixed source image it is a
  function from (width, quality) to a byte buffer or an error, modelled as
  `Nat → Int → Except ε (List Nat)`; a buffer is a list of bytes and its
  `length` is the JS `buf.length`.
* JS numbers holding quality bounds are modelled as `Int`: the loop in
  `findBestEncode` lowers `hi` to `mid - 1`, which reaches `-1` when the whole
  range fails, so `Nat` truncation would be unfaithful.
  `Math.round((lo + hi) / 2)` rounds halves up, which on integers is exactly
  `(lo + hi + 1) / 2` with Euclidean integer division (Lean's `/` on `Int`).
* Widths are `Nat`s.  `SCALE_STEP` is a JS float clamped into `[0.5, 0.99]`;
  it is modelled as the rational `scaleNum / scaleDen`, so the JS
  `Math.floor(width * SCALE_STEP)` becomes the `Nat` division
  `width * scaleNum / scaleDen`.
* The JS `while (lo <= hi)` loop shrinks the interval `[lo, hi]` by at least
  one element per iteration, so it runs at most `maxQ + 1 - minQ` times; the
  embedding `qualityLoopAux` carries that number as explicit structural fuel
  and tests the real loop condition `lo ≤ hi` on every step, so the fuel is
  never what stops it.  The outer `while (attempt <= MAX_DOWNSCALES)` loop is
  likewise structural on the remaining `MAX_DOWNSCALES + 1 - attempt` rounds.
* A falsy JS `metaWidth` (missing metadata or zero) is modelled as
  `metaWidth = 0`, so `metaWidth || MAX_WIDTH` is
  `if metaWidth = 0 then maxWidth else metaWidth`.
-/

/-- Run-wide configuration of the search, from the clamped CLI constants
`TARGET_BYTES`, `MAX_WIDTH`, `MIN_Q`, `MAX_Q`, `MAX_DOWNSCALES` and
`SCALE_STEP` (the latter as the rational `scaleNum / scaleDen`). -/
structure Config where
  targetBytes : Nat
  maxWidth : Nat
  minQ : Int
  maxQ : Int
  maxDownscales : Nat
  scaleNum : Nat
  scaleDen : Nat
deriving Repr, DecidableEq

/-- An encoder for one fixed source image: width and quality in, byte buffer
out, or an encoder error (`sharp` rejecting the pipeline). -/
def Enc (ε : Type) : Type := Nat → Int → Except ε (List Nat)

/-- The JS result object built by `findBestEncode`: `{ buf, width, quality,
bytes }`, with `bestEffort` present (`true`) only on the fallback path —
reading the absent field yields `undefined`, which is falsy, so the absent
field is modelled as `bestEffort = false`. -/
structure EncodeResult where
  buf : List Nat
  width : Nat
  quality : Int
  bytes : Nat
  bestEffort : Bool
deriving Repr, DecidableEq

/-- One step of the inner `while (lo <= hi)` quality binary search of
`findBestEncode` (lines 106–115): probe `mid = Math.round((lo+hi)/2)`; on a
buffer within `TARGET_BYTES` record it as `bestLocal` and raise `lo`, otherwise
lower `hi`.  `fuel` only bounds the number of iterations; the loop exit is the
genuine `lo ≤ hi` test. -/
def qualityLoopAux (enc : Enc ε) (cfg : Config) (width : Nat) :
    Nat → Int → Int → Option EncodeResult → Except ε (Option EncodeResult)
  | 0, _, _, bestLocal => .ok bestLocal
  | fuel + 1, lo, hi, bestLocal =>
    if lo ≤ hi then
      let mid := (lo + hi + 1) / 2
      match enc width mid with
      | .error e => .error e
      | .ok buf =>
        if buf.length ≤ cfg.targetBytes then
          qualityLoopAux enc cfg width fuel (mid + 1) hi
            (some ⟨buf, width, mid, buf.length, false⟩)
        else
          qualityLoopAux enc cfg width fuel lo (mid - 1) bestLocal
    else .ok bestLocal

/-- The inner quality search at a fixed width: binary search over
`[MIN_Q, MAX_Q]` starting from `bestLocal = null`. -/
def qualitySearch (enc : Enc ε) (cfg : Config) (width : Nat) :
    Except ε (Option EncodeResult) :=
  qualityLoopAux enc cfg width (cfg.maxQ + 1 - cfg.minQ).toNat cfg.minQ cfg.maxQ none

/-- The next width of the descent (line 122):
`Math.max(320, Math.floor((width || MAX_WIDTH) * SCALE_STEP))`. -/
def nextWidth (cfg : Config) (width : Nat) : Nat :=
  max 320 ((if width = 0 then cfg.maxWidth else width) * cfg.scaleNum / cfg.scaleDen)

/-- The outer `while (attempt <= MAX_DOWNSCALES)` loop of `findBestEncode`
(lines 101–127): run the quality search at the current width; a qualifying
candidate ends the loop, otherwise downscale and retry unless the width can
shrink no further.  `fuel` is the remaining number of permitted rounds,
`MAX_DOWNSCALES + 1 - attempt`. -/
def descentLoop (enc : Enc ε) (cfg : Config) : Nat → Nat → Except ε (Option EncodeResult)
  | _, 0 => .ok none
  | width, fuel + 1 =>
    match qualitySearch enc cfg width with
    | .error e => .error e
    | .ok (some bestLocal) => .ok (some bestLocal)
    | .ok none =>
      if nextWidth cfg width = width then .ok none
      else descentLoop enc cfg (nextWidth cfg width) fuel

/-- The starting width (line 97): `Math.min(metaWidth || MAX_WIDTH, MAX_WIDTH)`,
also reused by the fallback encode (lines 131 and 134). -/
def startWidth (cfg : Config) (metaWidth : Nat) : Nat :=
  min (if metaWidth = 0 then cfg.maxWidth else metaWidth) cfg.maxWidth

/-- `findBestEncode` (lines 95–142): resolution descent from the starting
width; if no round produced a qualifying candidate, one final best-effort
encode at `MIN_Q` and the starting width, flagged `bestEffort: true`. -/
def findBestEncode (enc : Enc ε) (cfg : Config) (metaWidth : Nat) :
    Except ε EncodeResult :=
  match descentLoop enc cfg (startWidth cfg metaWidth) (cfg.maxDownscales + 1) with
  | .error e => .error e
  | .ok (some best) => .ok best
  | .ok none =>
    match enc (startWidth cfg metaWidth) cfg.minQ with
    | .error e => .error e
    | .ok buf => .ok ⟨buf, startWidth cfg metaWidth, cfg.minQ, buf.length, true⟩

/-- The list of widths handed to the encoder, one per round of the descent
loop, mirroring `descentLoop` exactly (a round that probes the encoder
contributes its width whether the round qualifies, fails or errors). -/
def descentWidths (enc : Enc ε) (cfg : Config) : Nat → Nat → List Nat
  | _, 0 => []
  | width, fuel + 1 =>
    width ::
      match qualitySearch enc cfg width with
      | .error _ => []
      | .ok (some _) => []
      | .ok none =>
        if nextWidth cfg width = width then []
        else descentWidths enc cfg (nextWidth cfg width) fuel

/-- The number of encoder invocations made by the inner quality loop,
mirroring `qualityLoopAux`: one per iteration of `while (lo <= hi)` (an
erroring probe is still an invocation). -/
def qualityProbesAux (enc : Enc ε) (cfg : Config) (width : Nat) :
    Nat → Int → Int → Nat
  | 0, _, _ => 0
  | fuel + 1, lo, hi =>
    if lo ≤ hi then
      let mid := (lo + hi + 1) / 2
      match enc width mid with
      | .error _ => 1
      | .ok buf =>
        if buf.length ≤ cfg.targetBytes then
          1 + qualityProbesAux enc cfg width fuel (mid + 1) hi
        else
          1 + qualityProbesAux enc cfg width fuel lo (mid - 1)
    else 0

/-- Encoder invocations of one full quality search. -/
def qualityProbes (enc : Enc ε) (cfg : Config) (width : Nat) : Nat :=
  qualityProbesAux enc cfg width (cfg.maxQ + 1 - cfg.minQ).toNat cfg.minQ cfg.maxQ

/-- The (width, quality) arguments of the encoder invocations performed by the
quality loop, in execution order, mirroring `qualityLoopAux`: one probe per
iteration of `while (lo <= hi)`, and nothing after a probe that errors — the
exception aborts the loop at that point. -/
def qualityProbeList (enc : Enc ε) (cfg : Config) (width : Nat) :
    Nat → Int → Int → List (Nat × Int)
  | 0, _, _ => []
  | fuel + 1, lo, hi =>
    if lo ≤ hi then
      let mid := (lo + hi + 1) / 2
      (width, mid) ::
        match enc width mid with
        | .error _ => []
        | .ok buf =>
          if buf.length ≤ cfg.targetBytes then
            qualityProbeList enc cfg width fuel (mid + 1) hi
          else
            qualityProbeList enc cfg width fuel lo (mid - 1)
    else []

/-- The encoder invocations performed by the descent loop, in execution order,
mirroring `descentLoop`: each round contributes its quality search's probes,
and nothing follows a round that errored or that found a qualifying
candidate. -/
def searchProbeList (enc : Enc ε) (cfg : Config) : Nat → Nat → List (Nat × Int)
  | _, 0 => []
  | width, fuel + 1 =>
    qualityProbeList enc cfg width (cfg.maxQ + 1 - cfg.minQ).toNat cfg.minQ cfg.maxQ ++
      match qualitySearch enc cfg width with
      | .error _ => []
      | .ok (some _) => []
      | .ok none =>
        if nextWidth cfg width = width then []
        else searchProbeList enc cfg (nextWidth cfg width) fuel

/-- All encoder invocations of one `findBestEncode` run, in execution order:
the descent's probes, then — only when the descent exits with no candidate —
the single fallback probe at `minQ` and the starting width. -/
def findBestEncodeProbes (enc : Enc ε) (cfg : Config) (metaWidth : Nat) :
    List (Nat × Int) :=
  searchProbeList enc cfg (startWidth cfg metaWidth) (cfg.maxDownscales + 1) ++
    match descentLoop enc cfg (startWidth cfg metaWidth) (cfg.maxDownscales + 1) with
    | .ok none => [(startWidth cfg metaWidth, cfg.minQ)]
    | _ => []

instance [DecidableEq ε] [DecidableEq α] : DecidableEq (Except ε α) := fun x y =>
  match x, y with
  | .ok a, .ok b =>
    if h : a = b then .isTrue (by rw [h]) else .isFalse (fun hh => h (Except.ok.inj hh))
  | .error a, .error b =>
    if h : a = b then .isTrue (by rw [h]) else .isFalse (fun hh => h (Except.error.inj hh))
  | .ok _, .error _ => .isFalse (fun hh => Except.noConfusion hh)
  | .error _, .ok _ => .isFalse (fun hh => Except.noConfusion hh)

/-- A total synthetic encoder from a size model `sz width quality`: always
succeeds, returning a zero-filled buffer of the modelled length (used to
instantiate the search on concrete scenarios). -/
def sizedEnc (sz : Nat → Int → Nat) : Enc Unit :=
  fun width quality => .ok (List.replicate (sz width quality) 0)

example : qualitySearch (sizedEnc fun _ q => q.toNat)
    ⟨80, 1600, 65, 95, 4, 9, 10⟩ 1600 =
    .ok (some ⟨List.replicate 80 0, 1600, 80, 80, false⟩) := by decide

example : qualitySearch (sizedEnc fun _ q => q.toNat)
    ⟨40, 1600, 65, 95, 4, 9, 10⟩ 1600 = .ok none := by decide

/-- Loop invariant of the quality binary search, for an encoder that is total
at the probed width with byte lengths monotone in quality.  The invariant is
the usual one: qualities above `hi` are known to overflow the target,
`bestLocal`, when present, holds the qualifying encode at quality `lo - 1`,
and `bestLocal = none` forces `lo = minQ`. -/
theorem qualityLoopAux_invariant (enc : Enc ε) (cfg : Config) (width : Nat)
    (bf : Int → List Nat)
    (henc : ∀ q, enc width q = .ok (bf q))
    (hmono : ∀ q q' : Int, q ≤ q' → (bf q).length ≤ (bf q').length) :
    ∀ (fuel : Nat) (lo hi : Int) (best : Option EncodeResult),
      (hi + 1 - lo).toNat ≤ fuel →
      cfg.minQ ≤ lo → hi ≤ cfg.maxQ → lo ≤ cfg.maxQ + 1 →
      (∀ q, hi < q → q ≤ cfg.maxQ → cfg.targetBytes < (bf q).length) →
      (best = none → lo = cfg.minQ) →
      (∀ r, best = some r →
        r.buf = bf r.quality ∧ r.width = width ∧ r.bytes = (bf r.quality).length ∧
        r.bestEffort = false ∧ cfg.minQ ≤ r.quality ∧ r.quality = lo - 1 ∧
        (bf r.quality).length ≤ cfg.targetBytes) →
      ((qualityLoopAux enc cfg width fuel lo hi best = .ok none →
          ∀ q, cfg.minQ ≤ q → q ≤ cfg.maxQ → cfg.targetBytes < (bf q).length) ∧
       (∀ r, qualityLoopAux enc cfg width fuel lo hi best = .ok (some r) →
          r.buf = bf r.quality ∧ r.width = width ∧ r.bytes = (bf r.quality).length ∧
          r.bestEffort = false ∧ cfg.minQ ≤ r.quality ∧ r.quality ≤ cfg.maxQ ∧
          (bf r.quality).length ≤ cfg.targetBytes ∧
          ∀ q, r.quality < q → q ≤ cfg.maxQ → cfg.targetBytes < (bf q).length) ∧
       (∀ e, qualityLoopAux enc cfg width fuel lo hi best ≠ .error e)) := by
  intro fuel
  induction fuel with
  | zero =>
    intro lo hi best hms h1 h2 h3 h4 h5 h6
    have hexit : hi < lo := by omega
    refine ⟨?_, ?_, ?_⟩
    · intro hres q hq1 hq2
      simp only [qualityLoopAux, Except.ok.injEq] at hres
      have hlo := h5 hres
      exact h4 q (by omega) hq2
    · intro r hres
      simp only [qualityLoopAux, Except.ok.injEq] at hres
      obtain ⟨e1, e2, e3, e4, e5, e6, e7⟩ := h6 r hres
      exact ⟨e1, e2, e3, e4, e5, by omega, e7,
        fun q hq1 hq2 => h4 q (by omega) hq2⟩
    · intro e hres
      simp only [qualityLoopAux] at hres
      exact Except.noConfusion hres
  | succ fuel ih =>
    intro lo hi best hms h1 h2 h3 h4 h5 h6
    by_cases hcond : lo ≤ hi
    · have hmid1 : lo ≤ (lo + hi + 1) / 2 := by omega
      have hmid2 : (lo + hi + 1) / 2 ≤ hi := by omega
      have hstep : qualityLoopAux enc cfg width (fuel + 1) lo hi best =
          (if (bf ((lo + hi + 1) / 2)).length ≤ cfg.targetBytes then
            qualityLoopAux enc cfg width fuel ((lo + hi + 1) / 2 + 1) hi
              (some ⟨bf ((lo + hi + 1) / 2), width, (lo + hi + 1) / 2,
                (bf ((lo + hi + 1) / 2)).length, false⟩)
          else
            qualityLoopAux enc cfg width fuel lo ((lo + hi + 1) / 2 - 1) best) := by
        simp only [qualityLoopAux, if_pos hcond, henc]
      rw [hstep]
      by_cases hfit : (bf ((lo + hi + 1) / 2)).length ≤ cfg.targetBytes
      · rw [if_pos hfit]
        refine ih ((lo + hi + 1) / 2 + 1) hi _ (by omega) (by omega) h2 (by omega) h4
          (fun hc => by exact absurd hc (by simp)) ?_
        intro r hr
        have hr' : r = ⟨bf ((lo + hi + 1) / 2), width, (lo + hi + 1) / 2,
            (bf ((lo + hi + 1) / 2)).length, false⟩ := (Option.some.inj hr).symm
        subst hr'
        refine ⟨rfl, rfl, rfl, rfl, ?_, ?_, hfit⟩
        · show cfg.minQ ≤ (lo + hi + 1) / 2
          omega
        · show (lo + hi + 1) / 2 = (lo + hi + 1) / 2 + 1 - 1
          omega
      · rw [if_neg hfit]
        refine ih lo ((lo + hi + 1) / 2 - 1) best (by omega) h1 (by omega) h3 ?_ h5 ?_
        · intro q hq1 hq2
          by_cases hq3 : hi < q
          · exact h4 q hq3 hq2
          · have hle : (bf ((lo + hi + 1) / 2)).length ≤ (bf q).length :=
              hmono _ q (by omega)
            omega
        · intro r hr
          obtain ⟨e1, e2, e3, e4, e5, e6, e7⟩ := h6 r hr
          exact ⟨e1, e2, e3, e4, e5, e6, e7⟩
    · have hexit : hi < lo := by omega
      have hstep : qualityLoopAux enc cfg width (fuel + 1) lo hi best = .ok best := by
        simp only [qualityLoopAux, if_neg hcond]
      rw [hstep]
      refine ⟨?_, ?_, ?_⟩
      · intro hres q hq1 hq2
        have hlo := h5 (Except.ok.inj hres)
        exact h4 q (by omega) hq2
      · intro r hres
        obtain ⟨e1, e2, e3, e4, e5, e6, e7⟩ := h6 r (Except.ok.inj hres)
        exact ⟨e1, e2, e3, e4, e5, by omega, e7,
          fun q hq1 hq2 => h4 q (by omega) hq2⟩
      · intro e hres
        exact Except.noConfusion hres

/-- C1: For a fixed width and an encoder whose output byte length is
monotonically non-decreasing in quality, the inner quality search of
`findBestEncode` returns the highest quality in `[minQ, maxQ]` whose encoded
byte length is within `targetBytes` — together with that encode's buffer,
width and byte length — and returns no candidate exactly when even `minQ`'s
encode exceeds `targetBytes`. -/
theorem qualitySearch_finds_max_quality (enc : Enc ε) (cfg : Config) (width : Nat)
    (bf : Int → List Nat)
    (henc : ∀ q, enc width q = .ok (bf q))
    (hmono : ∀ q q' : Int, q ≤ q' → (bf q).length ≤ (bf q').length)
    (hrange : cfg.minQ ≤ cfg.maxQ) :
    if (bf cfg.minQ).length ≤ cfg.targetBytes then
      ∃ r, qualitySearch enc cfg width = .ok (some r) ∧
        r.buf = bf r.quality ∧ r.width = width ∧ r.bytes = (bf r.quality).length ∧
        cfg.minQ ≤ r.quality ∧ r.quality ≤ cfg.maxQ ∧
        (bf r.quality).length ≤ cfg.targetBytes ∧
        ∀ q, cfg.minQ ≤ q → q ≤ cfg.maxQ → (bf q).length ≤ cfg.targetBytes →
          q ≤ r.quality
    else qualitySearch enc cfg width = .ok none := by
  obtain ⟨hnone, hsome, herr⟩ := qualityLoopAux_invariant enc cfg width bf henc hmono
    (cfg.maxQ + 1 - cfg.minQ).toNat cfg.minQ cfg.maxQ none (le_refl _) (le_refl _)
    (le_refl _) (by omega) (fun q hq1 hq2 => absurd hq1 (by omega))
    (fun _ => rfl) (fun r hr => Option.noConfusion hr)
  match hres : qualitySearch enc cfg width with
  | .error e => exact absurd hres (herr e)
  | .ok none =>
    have hfail := hnone hres cfg.minQ (le_refl _) hrange
    rw [if_neg (by omega)]
  | .ok (some r) =>
    obtain ⟨e1, e2, e3, _e4, e5, e6, e7, e8⟩ := hsome r hres
    have hfit : (bf cfg.minQ).length ≤ cfg.targetBytes :=
      le_trans (hmono cfg.minQ r.quality e5) e7
    rw [if_pos hfit]
    refine ⟨r, rfl, e1, e2, e3, e5, e6, e7, ?_⟩
    intro q hq1 hq2 hq3
    by_contra hq4
    have := e8 q (by omega) hq2
    omega

/-- Witness for C1: the synthetic monotone encoder whose buffer at quality `q`
has `q` bytes, with `targetBytes = 80` and quality range `[65, 95]`; the
quality search then returns quality 80. -/
theorem qualitySearch_finds_max_quality_witness :
    if (List.replicate (65 : Int).toNat 0).length ≤ 80 then
      ∃ r, qualitySearch (sizedEnc fun _ q => q.toNat) ⟨80, 1600, 65, 95, 4, 9, 10⟩ 1600 =
          .ok (some r) ∧
        r.buf = List.replicate r.quality.toNat 0 ∧ r.width = 1600 ∧
        r.bytes = (List.replicate r.quality.toNat 0).length ∧
        65 ≤ r.quality ∧ r.quality ≤ 95 ∧
        (List.replicate r.quality.toNat 0).length ≤ 80 ∧
        ∀ q : Int, 65 ≤ q → q ≤ 95 → (List.replicate q.toNat 0).length ≤ 80 →
          q ≤ r.quality
    else qualitySearch (sizedEnc fun _ q => q.toNat) ⟨80, 1600, 65, 95, 4, 9, 10⟩ 1600 =
        .ok none :=
  qualitySearch_finds_max_quality (sizedEnc fun _ q => q.toNat)
    ⟨80, 1600, 65, 95, 4, 9, 10⟩ 1600 (fun q => List.replicate q.toNat 0)
    (fun _ => rfl)
    (fun q q' h => by simp only [List.length_replicate]; omega)
    (by decide)

/-- Any qualifying candidate produced by the quality loop is within the target
and not flagged best-effort: the JS `bestLocal` is only ever assigned from a
probe that passed the `buf.length <= TARGET_BYTES` test, and without the
`bestEffort` field. -/
theorem qualityLoopAux_ok_some (enc : Enc ε) (cfg : Config) (width : Nat) :
    ∀ (fuel : Nat) (lo hi : Int) (best : Option EncodeResult),
      (∀ r, best = some r → r.bytes ≤ cfg.targetBytes ∧ r.bestEffort = false) →
      ∀ r, qualityLoopAux enc cfg width fuel lo hi best = .ok (some r) →
        r.bytes ≤ cfg.targetBytes ∧ r.bestEffort = false := by
  intro fuel
  induction fuel with
  | zero =>
    intro lo hi best hbest r hres
    simp only [qualityLoopAux, Except.ok.injEq] at hres
    exact hbest r hres
  | succ fuel ih =>
    intro lo hi best hbest r hres
    simp only [qualityLoopAux] at hres
    split at hres
    · split at hres
      · exact Except.noConfusion hres
      · split at hres
        · rename_i hfit
          refine ih _ _ _ ?_ r hres
          intro r' hr'
          cases Option.some.inj hr'
          exact ⟨hfit, rfl⟩
        · exact ih _ _ _ hbest r hres
    · exact hbest r (Except.ok.inj hres)

/-- `qualityLoopAux_ok_some` instantiated at the start of the search. -/
theorem qualitySearch_ok_some (enc : Enc ε) (cfg : Config) (width : Nat)
    (r : EncodeResult) (hres : qualitySearch enc cfg width = .ok (some r)) :
    r.bytes ≤ cfg.targetBytes ∧ r.bestEffort = false :=
  qualityLoopAux_ok_some enc cfg width _ _ _ none
    (fun _ hr => Option.noConfusion hr) r hres

/-- A candidate returned by the descent loop comes from some round's quality
search, hence is within the target and not flagged best-effort. -/
theorem descentLoop_ok_some (enc : Enc ε) (cfg : Config) :
    ∀ (fuel width : Nat) (r : EncodeResult),
      descentLoop enc cfg width fuel = .ok (some r) →
      r.bytes ≤ cfg.targetBytes ∧ r.bestEffort = false := by
  intro fuel
  induction fuel with
  | zero =>
    intro width r hres
    simp only [descentLoop] at hres
    exact Option.noConfusion (Except.ok.inj hres)
  | succ fuel ih =>
    intro width r hres
    simp only [descentLoop] at hres
    split at hres
    · exact Except.noConfusion hres
    · rename_i bl hbl
      cases Option.some.inj (Except.ok.inj hres)
      exact qualitySearch_ok_some enc cfg width _ hbl
    · split at hres
      · exact Option.noConfusion (Except.ok.inj hres)
      · exact ih _ r hres

/-- C2: For every input on which the encoder succeeds, if the outcome returned
by `findBestEncode` is not flagged `bestEffort`, then its byte length is
within `targetBytes`. -/
theorem findBestEncode_within_target (enc : Enc ε) (cfg : Config) (metaWidth : Nat)
    (r : EncodeResult) (hres : findBestEncode enc cfg metaWidth = .ok r)
    (hbe : r.bestEffort = false) : r.bytes ≤ cfg.targetBytes := by
  simp only [findBestEncode] at hres
  split at hres
  · exact Except.noConfusion hres
  · rename_i best hbest
    cases Except.ok.inj hres
    exact (descentLoop_ok_some enc cfg _ _ _ hbest).1
  · split at hres
    · exact Except.noConfusion hres
    · cases Except.ok.inj hres
      exact absurd hbe (by simp)

/-- Witness for C2: the synthetic monotone encoder at `metaWidth = 1000`
finds quality 80 with 80 bytes, within the 80-byte target. -/
theorem findBestEncode_within_target_witness :
    (⟨List.replicate 80 0, 1000, 80, 80, false⟩ : EncodeResult).bytes ≤
      (⟨80, 1600, 65, 95, 4, 9, 10⟩ : Config).targetBytes :=
  findBestEncode_within_target (sizedEnc fun _ q => q.toNat)
    ⟨80, 1600, 65, 95, 4, 9, 10⟩ 1000 ⟨List.replicate 80 0, 1000, 80, 80, false⟩
    (by decide) rfl

/-- C3: when the descent loop produces no qualifying candidate, the fallback
outcome is the encode at `minQ` and the original starting width
`min(naturalWidth, maxWidth)`, flagged `bestEffort = true`, returned with
whatever byte length that encode has. -/
theorem findBestEncode_fallback (enc : Enc ε) (cfg : Config) (metaWidth : Nat)
    (buf : List Nat)
    (hnone : descentLoop enc cfg (startWidth cfg metaWidth) (cfg.maxDownscales + 1) =
      .ok none)
    (hbuf : enc (startWidth cfg metaWidth) cfg.minQ = .ok buf) :
    findBestEncode enc cfg metaWidth =
      .ok ⟨buf, startWidth cfg metaWidth, cfg.minQ, buf.length, true⟩ ∧
    (metaWidth ≠ 0 → startWidth cfg metaWidth = min metaWidth cfg.maxWidth) := by
  constructor
  · simp only [findBestEncode, hnone, hbuf]
  · intro h
    simp only [startWidth, if_neg h]

/-- Witness for C3: an encoder that always produces 50 bytes against a
10-byte target never qualifies, so `findBestEncode` falls back to quality 65
at the starting width `min 400 500 = 400` even though 50 > 10. -/
theorem findBestEncode_fallback_witness :
    findBestEncode (sizedEnc fun _ _ => 50) ⟨10, 500, 65, 95, 1, 9, 10⟩ 400 =
      .ok ⟨List.replicate 50 0, startWidth ⟨10, 500, 65, 95, 1, 9, 10⟩ 400, 65,
        (List.replicate 50 (0 : Nat)).length, true⟩ ∧
    (400 ≠ 0 → startWidth ⟨10, 500, 65, 95, 1, 9, 10⟩ 400 = min 400 500) :=
  findBestEncode_fallback (sizedEnc fun _ _ => 50) ⟨10, 500, 65, 95, 1, 9, 10⟩ 400
    (List.replicate 50 0) (by decide) rfl

/-- Width descent bounds: starting at or above the hard floor of 320 px, the
widths probed by successive rounds strictly decrease and stay within
`[320, start]` (each next width is `max 320 ⌊width·scaleStep⌋ < width`, and
the round at the floor shrinks to itself and stops). -/
theorem descentWidths_bounds (enc : Enc ε) (cfg : Config)
    (hden : 0 < cfg.scaleDen) (hnum : cfg.scaleNum < cfg.scaleDen) :
    ∀ (fuel width : Nat), 320 ≤ width →
      List.Chain' (fun a b => b < a) (descentWidths enc cfg width fuel) ∧
      ∀ x ∈ descentWidths enc cfg width fuel, 320 ≤ x ∧ x ≤ width := by
  intro fuel
  induction fuel with
  | zero =>
    intro width hw
    simp only [descentWidths]
    exact ⟨List.chain'_nil, fun x hx => absurd hx (List.not_mem_nil x)⟩
  | succ fuel ih =>
    intro width hw
    simp only [descentWidths]
    split
    · exact ⟨List.chain'_singleton _, by intro x hx; simp at hx; omega⟩
    · exact ⟨List.chain'_singleton _, by intro x hx; simp at hx; omega⟩
    · split
      · exact ⟨List.chain'_singleton _, by intro x hx; simp at hx; omega⟩
      · rename_i hne
        have hw0 : width ≠ 0 := by omega
        have hlt : nextWidth cfg width < width := by
          have h1 : width * cfg.scaleNum < width * cfg.scaleDen :=
            mul_lt_mul_of_pos_left hnum (by omega)
          have hdiv : width * cfg.scaleNum / cfg.scaleDen < width :=
            (Nat.div_lt_iff_lt_mul hden).mpr h1
          simp only [nextWidth, if_neg hw0] at hne ⊢
          omega
        have hge : 320 ≤ nextWidth cfg width := le_max_left _ _
        obtain ⟨hch, hbd⟩ := ih (nextWidth cfg width) hge
        constructor
        · refine List.chain'_cons'.mpr ⟨?_, hch⟩
          intro h hh
          have := hbd h (List.mem_of_mem_head? hh)
          omega
        · intro x hx
          rcases List.mem_cons.mp hx with h | h
          · subst h; omega
          · have := hbd x h; omega

/-- C4 (amended): provided the starting width `min(naturalWidth, maxWidth)` is
at least the hard floor width 320, the widths passed to the encoder strictly
decrease between successive downscale rounds and all stay between 320 and the
starting width (so the descent stops at the floor).  The unamended claim
fails when the starting width is below 320 — see the counterexample. -/
theorem findBestEncode_widths_decreasing (enc : Enc ε) (cfg : Config)
    (metaWidth : Nat) (hden : 0 < cfg.scaleDen) (hnum : cfg.scaleNum < cfg.scaleDen)
    (hstart : 320 ≤ startWidth cfg metaWidth) :
    List.Chain' (fun a b => b < a)
      (descentWidths enc cfg (startWidth cfg metaWidth) (cfg.maxDownscales + 1)) ∧
    ∀ x ∈ descentWidths enc cfg (startWidth cfg metaWidth) (cfg.maxDownscales + 1),
      320 ≤ x ∧ x ≤ startWidth cfg metaWidth :=
  descentWidths_bounds enc cfg hden hnum _ _ hstart

/-- Witness for C4 (amended): an always-50-byte encoder against a 10-byte
target, `naturalWidth = 400`, `maxWidth = 500`: the widths probed are
`[400, 360, 324, 320]`, strictly decreasing within `[320, 400]`. -/
theorem findBestEncode_widths_decreasing_witness :
    List.Chain' (fun a b => b < a)
      (descentWidths (sizedEnc fun _ _ => 50) ⟨10, 500, 65, 95, 4, 9, 10⟩
        (startWidth ⟨10, 500, 65, 95, 4, 9, 10⟩ 400) (4 + 1)) ∧
    ∀ x ∈ descentWidths (sizedEnc fun _ _ => 50) ⟨10, 500, 65, 95, 4, 9, 10⟩
        (startWidth ⟨10, 500, 65, 95, 4, 9, 10⟩ 400) (4 + 1),
      320 ≤ x ∧ x ≤ startWidth ⟨10, 500, 65, 95, 4, 9, 10⟩ 400 :=
  findBestEncode_widths_decreasing (sizedEnc fun _ _ => 50)
    ⟨10, 500, 65, 95, 4, 9, 10⟩ 400 (by decide) (by decide) (by decide)

/-- C4 counterexample: with `naturalWidth = 100` and `maxWidth = 1600` the
starting width is `min 100 1600 = 100`, below the hard floor of 320; against
an encoder that always produces 50 bytes on a 10-byte target, the second
descent round passes width `max 320 ⌊100·0.9⌋ = 320` to the encoder.  The
width sequence `[100, 320]` increases between rounds and its second element
exceeds `min(naturalWidth, maxWidth) = 100`, refuting the claim as stated. -/
theorem findBestEncode_widths_increase_counterexample :
    descentWidths (sizedEnc fun _ _ => 50) ⟨10, 1600, 65, 95, 4, 9, 10⟩
      (startWidth ⟨10, 1600, 65, 95, 4, 9, 10⟩ 100) (4 + 1) = [100, 320] ∧
    ¬ (320 ≤ 100) := by decide

/-- With an encoder that succeeds on every invocation, the quality loop never
produces an error. -/
theorem qualityLoopAux_total (enc : Enc ε) (cfg : Config) (width : Nat)
    (htot : ∀ w q, ∃ buf, enc w q = .ok buf) :
    ∀ (fuel : Nat) (lo hi : Int) (best : Option EncodeResult),
      ∃ o, qualityLoopAux enc cfg width fuel lo hi best = .ok o := by
  intro fuel
  induction fuel with
  | zero => intro lo hi best; exact ⟨best, rfl⟩
  | succ fuel ih =>
    intro lo hi best
    by_cases hcond : lo ≤ hi
    · obtain ⟨buf, hbuf⟩ := htot width ((lo + hi + 1) / 2)
      have hstep : qualityLoopAux enc cfg width (fuel + 1) lo hi best =
          if buf.length ≤ cfg.targetBytes then
            qualityLoopAux enc cfg width fuel ((lo + hi + 1) / 2 + 1) hi
              (some ⟨buf, width, (lo + hi + 1) / 2, buf.length, false⟩)
          else qualityLoopAux enc cfg width fuel lo ((lo + hi + 1) / 2 - 1) best := by
        simp only [qualityLoopAux, if_pos hcond, hbuf]
      rw [hstep]
      by_cases hfit : buf.length ≤ cfg.targetBytes
      · rw [if_pos hfit]; exact ih _ _ _
      · rw [if_neg hfit]; exact ih _ _ _
    · exact ⟨best, by simp only [qualityLoopAux, if_neg hcond]⟩

/-- With an encoder that succeeds on every invocation, the descent loop never
produces an error. -/
theorem descentLoop_total (enc : Enc ε) (cfg : Config)
    (htot : ∀ w q, ∃ buf, enc w q = .ok buf) :
    ∀ (fuel width : Nat), ∃ o, descentLoop enc cfg width fuel = .ok o := by
  intro fuel
  induction fuel with
  | zero => intro width; exact ⟨none, rfl⟩
  | succ fuel ih =>
    intro width
    obtain ⟨o, ho⟩ := qualityLoopAux_total enc cfg width htot
      (cfg.maxQ + 1 - cfg.minQ).toNat cfg.minQ cfg.maxQ none
    have ho' : qualitySearch enc cfg width = .ok o := ho
    cases o with
    | some r => exact ⟨some r, by simp only [descentLoop, ho']⟩
    | none =>
      by_cases hnw : nextWidth cfg width = width
      · exact ⟨none, by simp only [descentLoop, ho', if_pos hnw]⟩
      · obtain ⟨o2, ho2⟩ := ih (nextWidth cfg width)
        exact ⟨o2, by simp only [descentLoop, ho', if_neg hnw, ho2]⟩

/-- C5: whenever every encoder invocation succeeds, `findBestEncode` always
returns an outcome: exhausting every (width, quality) combination is never an
error or an absent result — the best-effort fallback covers it. -/
theorem findBestEncode_total (enc : Enc ε) (cfg : Config) (metaWidth : Nat)
    (htot : ∀ w q, ∃ buf, enc w q = .ok buf) :
    ∃ r, findBestEncode enc cfg metaWidth = .ok r := by
  obtain ⟨o, ho⟩ := descentLoop_total enc cfg htot (cfg.maxDownscales + 1)
    (startWidth cfg metaWidth)
  cases o with
  | some r => exact ⟨r, by simp only [findBestEncode, ho]⟩
  | none =>
    obtain ⟨buf, hbuf⟩ := htot (startWidth cfg metaWidth) cfg.minQ
    exact ⟨⟨buf, startWidth cfg metaWidth, cfg.minQ, buf.length, true⟩,
      by simp only [findBestEncode, ho, hbuf]⟩

/-- Witness for C5: the always-50-byte encoder against a 10-byte target never
fits, yet the search still returns an outcome. -/
theorem findBestEncode_total_witness :
    ∃ r, findBestEncode (sizedEnc fun _ _ => 50) ⟨10, 500, 65, 95, 1, 9, 10⟩ 400 =
      .ok r :=
  findBestEncode_total (sizedEnc fun _ _ => 50) ⟨10, 500, 65, 95, 1, 9, 10⟩ 400
    (fun _ _ => ⟨List.replicate 50 0, rfl⟩)

/-- `⌊log₂ n⌋ + 1` for positive `n`: the classic bound on the number of
iterations of a binary search over an `n`-element range. -/
def logBound (n : Nat) : Nat := if n = 0 then 0 else Nat.log 2 n + 1

/-- Halving step of the probe bound: a binary-search iteration leaves at most
half the range, so bounds compose logarithmically. -/
theorem logBound_step (m n : Nat) (hm : m ≤ n / 2) (hn : 0 < n) :
    logBound m + 1 ≤ logBound n := by
  by_cases h0 : m = 0
  · simp only [logBound, if_pos h0, if_neg (by omega : ¬ n = 0)]
    omega
  · have h2 : 2 ≤ n := by omega
    have hpos : 0 < Nat.log 2 n := Nat.log_pos one_lt_two h2
    have hmono : Nat.log 2 m ≤ Nat.log 2 (n / 2) := Nat.log_mono_right hm
    have hdiv : Nat.log 2 (n / 2) = Nat.log 2 n - 1 := Nat.log_div_base 2 n
    simp only [logBound, if_neg h0, if_neg (by omega : ¬ n = 0)]
    omega

/-- The quality loop performs at most `⌊log₂ |[lo, hi]|⌋ + 1` encoder probes:
each iteration halves the remaining interval. -/
theorem qualityProbesAux_le (enc : Enc ε) (cfg : Config) (width : Nat) :
    ∀ (fuel : Nat) (lo hi : Int),
      (hi + 1 - lo).toNat ≤ fuel →
      qualityProbesAux enc cfg width fuel lo hi ≤ logBound (hi + 1 - lo).toNat := by
  intro fuel
  induction fuel with
  | zero =>
    intro lo hi hms
    simp only [qualityProbesAux]
    omega
  | succ fuel ih =>
    intro lo hi hms
    by_cases hcond : lo ≤ hi
    · have hn : 0 < (hi + 1 - lo).toNat := by omega
      cases hbuf : enc width ((lo + hi + 1) / 2) with
      | error e =>
        have hstep : qualityProbesAux enc cfg width (fuel + 1) lo hi = 1 := by
          simp only [qualityProbesAux, if_pos hcond, hbuf]
        rw [hstep]
        simp only [logBound, if_neg (by omega : ¬ (hi + 1 - lo).toNat = 0)]
        omega
      | ok buf =>
        have hstep : qualityProbesAux enc cfg width (fuel + 1) lo hi =
            if buf.length ≤ cfg.targetBytes then
              1 + qualityProbesAux enc cfg width fuel ((lo + hi + 1) / 2 + 1) hi
            else
              1 + qualityProbesAux enc cfg width fuel lo ((lo + hi + 1) / 2 - 1) := by
          simp only [qualityProbesAux, if_pos hcond, hbuf]
        rw [hstep]
        by_cases hfit : buf.length ≤ cfg.targetBytes
        · rw [if_pos hfit]
          have hrec := ih ((lo + hi + 1) / 2 + 1) hi (by omega)
          have hcomp := logBound_step (hi + 1 - ((lo + hi + 1) / 2 + 1)).toNat
            (hi + 1 - lo).toNat (by omega) hn
          omega
        · rw [if_neg hfit]
          have hrec := ih lo ((lo + hi + 1) / 2 - 1) (by omega)
          have hcomp := logBound_step ((lo + hi + 1) / 2 - 1 + 1 - lo).toNat
            (hi + 1 - lo).toNat (by omega) hn
          omega
    · have hstep : qualityProbesAux enc cfg width (fuel + 1) lo hi = 0 := by
        simp only [qualityProbesAux, if_neg hcond]
      rw [hstep]
      omega

/-- The descent performs at most `fuel` rounds. -/
theorem descentWidths_length_le (enc : Enc ε) (cfg : Config) :
    ∀ (fuel width : Nat), (descentWidths enc cfg width fuel).length ≤ fuel := by
  intro fuel
  induction fuel with
  | zero => intro width; simp [descentWidths]
  | succ fuel ih =>
    intro width
    simp only [descentWidths, List.length_cons]
    split
    · simp only [List.length_nil]; omega
    · simp only [List.length_nil]; omega
    · split
      · simp only [List.length_nil]; omega
      · have := ih (nextWidth cfg width); omega

/-- C6: the search always terminates (all loops are total functions here), the
inner binary search makes at most `⌊log₂(maxQ − minQ + 1)⌋ + 1` encoder probes
per width — exactly one when `minQ = maxQ` — and the outer loop runs at most
`maxDownscaleRounds + 1` rounds. -/
theorem findBestEncode_complexity (enc : Enc ε) (cfg : Config)
    (width metaWidth : Nat) :
    qualityProbes enc cfg width ≤
      Nat.log 2 (cfg.maxQ + 1 - cfg.minQ).toNat + 1 ∧
    (cfg.minQ = cfg.maxQ → qualityProbes enc cfg width = 1) ∧
    (descentWidths enc cfg (startWidth cfg metaWidth) (cfg.maxDownscales + 1)).length ≤
      cfg.maxDownscales + 1 := by
  refine ⟨?_, ?_, descentWidths_length_le enc cfg _ _⟩
  · have h := qualityProbesAux_le enc cfg width (cfg.maxQ + 1 - cfg.minQ).toNat
      cfg.minQ cfg.maxQ (le_refl _)
    have h2 : logBound (cfg.maxQ + 1 - cfg.minQ).toNat ≤
        Nat.log 2 (cfg.maxQ + 1 - cfg.minQ).toNat + 1 := by
      simp only [logBound]
      split <;> omega
    exact le_trans h h2
  · intro h
    have h1 : (cfg.maxQ + 1 - cfg.minQ).toNat = 1 := by omega
    simp only [qualityProbes, h1, qualityProbesAux,
      if_pos (by omega : cfg.minQ ≤ cfg.maxQ)]
    split
    · rfl
    · split <;> rfl

/-- Witness for C6 at `minQ = maxQ = 70`: the single-quality range makes
exactly one probe. -/
theorem findBestEncode_complexity_witness :
    qualityProbes (sizedEnc fun _ q => q.toNat) ⟨80, 1600, 70, 70, 4, 9, 10⟩ 1600 ≤
      Nat.log 2 ((70 : Int) + 1 - 70).toNat + 1 ∧
    ((70 : Int) = 70 →
      qualityProbes (sizedEnc fun _ q => q.toNat) ⟨80, 1600, 70, 70, 4, 9, 10⟩ 1600 = 1) ∧
    (descentWidths (sizedEnc fun _ q => q.toNat) ⟨80, 1600, 70, 70, 4, 9, 10⟩
        (startWidth ⟨80, 1600, 70, 70, 4, 9, 10⟩ 0) (4 + 1)).length ≤ 4 + 1 :=
  findBestEncode_complexity (sizedEnc fun _ q => q.toNat)
    ⟨80, 1600, 70, 70, 4, 9, 10⟩ 1600 0

/-- Any error produced by the quality loop is an error the encoder returned at
the probed width: nothing is caught or synthesized inside the loop. -/
theorem qualityLoopAux_error_src (enc : Enc ε) (cfg : Config) (width : Nat) :
    ∀ (fuel : Nat) (lo hi : Int) (best : Option EncodeResult) (e : ε),
      qualityLoopAux enc cfg width fuel lo hi best = .error e →
      ∃ q, enc width q = .error e := by
  intro fuel
  induction fuel with
  | zero =>
    intro lo hi best e hres
    simp only [qualityLoopAux] at hres
    exact Except.noConfusion hres
  | succ fuel ih =>
    intro lo hi best e hres
    simp only [qualityLoopAux] at hres
    split at hres
    · split at hres
      · rename_i e0 henc0
        cases Except.error.inj hres
        exact ⟨_, henc0⟩
      · split at hres
        · exact ih _ _ _ e hres
        · exact ih _ _ _ e hres
    · exact Except.noConfusion hres

/-- Any error produced by the descent loop originates from an encoder
invocation. -/
theorem descentLoop_error_src (enc : Enc ε) (cfg : Config) :
    ∀ (fuel width : Nat) (e : ε),
      descentLoop enc cfg width fuel = .error e →
      ∃ w q, enc w q = .error e := by
  intro fuel
  induction fuel with
  | zero =>
    intro width e hres
    simp only [descentLoop] at hres
    exact Except.noConfusion hres
  | succ fuel ih =>
    intro width e hres
    simp only [descentLoop] at hres
    split at hres
    · rename_i e0 hq
      cases Except.error.inj hres
      obtain ⟨q, hq'⟩ := qualityLoopAux_error_src enc cfg width _ _ _ _ _ hq
      exact ⟨width, q, hq'⟩
    · exact Except.noConfusion hres
    · split at hres
      · exact Except.noConfusion hres
      · exact ih _ e hres

/-- A failing encoder invocation anywhere in the quality loop's probe
sequence aborts the loop with exactly that error, and is the loop's last
probe: nothing is caught, retried or attempted after it. -/
theorem qualityLoopAux_error_at_probe (enc : Enc ε) (cfg : Config) (width : Nat) :
    ∀ (fuel : Nat) (lo hi : Int) (w : Nat) (q : Int) (e : ε),
      (w, q) ∈ qualityProbeList enc cfg width fuel lo hi →
      enc w q = .error e →
      (∀ best, qualityLoopAux enc cfg width fuel lo hi best = .error e) ∧
      (qualityProbeList enc cfg width fuel lo hi).getLast? = some (w, q) := by
  intro fuel
  induction fuel with
  | zero =>
    intro lo hi w q e hmem henc
    simp only [qualityProbeList] at hmem
    exact absurd hmem (List.not_mem_nil _)
  | succ fuel ih =>
    intro lo hi w q e hmem henc
    by_cases hcond : lo ≤ hi
    · cases henc0 : enc width ((lo + hi + 1) / 2) with
      | error e0 =>
        have hlist : qualityProbeList enc cfg width (fuel + 1) lo hi =
            [(width, (lo + hi + 1) / 2)] := by
          simp only [qualityProbeList, if_pos hcond, henc0]
        rw [hlist] at hmem
        have hwq : (w, q) = (width, (lo + hi + 1) / 2) := List.mem_singleton.mp hmem
        injection hwq with hw hq
        subst hw
        subst hq
        refine ⟨?_, ?_⟩
        · intro best
          simp only [qualityLoopAux, if_pos hcond, henc]
        · rw [hlist]
          simp
      | ok buf =>
        have hlist : qualityProbeList enc cfg width (fuel + 1) lo hi =
            (width, (lo + hi + 1) / 2) ::
              (if buf.length ≤ cfg.targetBytes then
                qualityProbeList enc cfg width fuel ((lo + hi + 1) / 2 + 1) hi
              else qualityProbeList enc cfg width fuel lo ((lo + hi + 1) / 2 - 1)) := by
          simp only [qualityProbeList, if_pos hcond, henc0]
        rw [hlist] at hmem
        rcases List.mem_cons.mp hmem with hhead | htail
        · injection hhead with hw hq
          subst hw
          subst hq
          rw [henc] at henc0
          exact Except.noConfusion henc0
        · by_cases hfit : buf.length ≤ cfg.targetBytes
          · rw [if_pos hfit] at htail
            obtain ⟨hloop, hlast⟩ := ih _ _ w q e htail henc
            refine ⟨?_, ?_⟩
            · intro best
              simp only [qualityLoopAux, if_pos hcond, henc0, if_pos hfit]
              exact hloop _
            · have hne : qualityProbeList enc cfg width fuel
                  ((lo + hi + 1) / 2 + 1) hi ≠ [] := List.ne_nil_of_mem htail
              rw [hlist, if_pos hfit, ← List.singleton_append,
                List.getLast?_append_of_ne_nil _ hne]
              exact hlast
          · rw [if_neg hfit] at htail
            obtain ⟨hloop, hlast⟩ := ih _ _ w q e htail henc
            refine ⟨?_, ?_⟩
            · intro best
              simp only [qualityLoopAux, if_pos hcond, henc0, if_neg hfit]
              exact hloop _
            · have hne : qualityProbeList enc cfg width fuel
                  lo ((lo + hi + 1) / 2 - 1) ≠ [] := List.ne_nil_of_mem htail
              rw [hlist, if_neg hfit, ← List.singleton_append,
                List.getLast?_append_of_ne_nil _ hne]
              exact hlast
    · have hlist : qualityProbeList enc cfg width (fuel + 1) lo hi = [] := by
        simp only [qualityProbeList, if_neg hcond]
      rw [hlist] at hmem
      exact absurd hmem (List.not_mem_nil _)

/-- A failing encoder invocation anywhere in the descent's probe sequence
aborts the descent with exactly that error, and is the descent's last
probe. -/
theorem descentLoop_error_at_probe (enc : Enc ε) (cfg : Config) :
    ∀ (fuel width w : Nat) (q : Int) (e : ε),
      (w, q) ∈ searchProbeList enc cfg width fuel →
      enc w q = .error e →
      descentLoop enc cfg width fuel = .error e ∧
      (searchProbeList enc cfg width fuel).getLast? = some (w, q) := by
  intro fuel
  induction fuel with
  | zero =>
    intro width w q e hmem henc
    simp only [searchProbeList] at hmem
    exact absurd hmem (List.not_mem_nil _)
  | succ fuel ih =>
    intro width w q e hmem henc
    simp only [searchProbeList] at hmem
    rcases List.mem_append.mp hmem with hql | htail
    · obtain ⟨hloop, hlast⟩ :=
        qualityLoopAux_error_at_probe enc cfg width _ _ _ w q e hql henc
      have hqs : qualitySearch enc cfg width = .error e := hloop none
      refine ⟨?_, ?_⟩
      · simp only [descentLoop, hqs]
      · have hlist : searchProbeList enc cfg width (fuel + 1) =
            qualityProbeList enc cfg width (cfg.maxQ + 1 - cfg.minQ).toNat
              cfg.minQ cfg.maxQ := by
          simp only [searchProbeList, hqs, List.append_nil]
        rw [hlist]
        exact hlast
    · cases hqs : qualitySearch enc cfg width with
      | error e0 =>
        simp only [hqs] at htail
        exact absurd htail (List.not_mem_nil _)
      | ok o =>
        cases o with
        | some r =>
          simp only [hqs] at htail
          exact absurd htail (List.not_mem_nil _)
        | none =>
          simp only [hqs] at htail
          by_cases hnw : nextWidth cfg width = width
          · rw [if_pos hnw] at htail
            exact absurd htail (List.not_mem_nil _)
          · rw [if_neg hnw] at htail
            obtain ⟨hd, hl⟩ := ih _ w q e htail henc
            refine ⟨?_, ?_⟩
            · simp only [descentLoop, hqs, if_neg hnw]
              exact hd
            · have hne : searchProbeList enc cfg (nextWidth cfg width) fuel ≠ [] :=
                List.ne_nil_of_mem htail
              have hlist : searchProbeList enc cfg width (fuel + 1) =
                  qualityProbeList enc cfg width (cfg.maxQ + 1 - cfg.minQ).toNat
                    cfg.minQ cfg.maxQ ++
                  searchProbeList enc cfg (nextWidth cfg width) fuel := by
                simp only [searchProbeList, hqs, if_neg hnw]
              rw [hlist, List.getLast?_append_of_ne_nil _ hne]
              exact hl

/-- C7: encoder failures are neither retried nor caught, at any point of the
search.  If any encoder invocation the search performs — any element of its
probe trace, at any width and quality, the fallback encode included — fails,
then `findBestEncode` returns exactly that error (so no outcome is returned
for the image) and that invocation is the last one performed: nothing further
is attempted.  Conversely, any error `findBestEncode` returns is one the
encoder produced: there is no other failure mode. -/
theorem findBestEncode_error_propagation (enc : Enc ε) (cfg : Config)
    (metaWidth w : Nat) (q : Int) (e : ε) :
    ((w, q) ∈ findBestEncodeProbes enc cfg metaWidth → enc w q = .error e →
      findBestEncode enc cfg metaWidth = .error e ∧
      (findBestEncodeProbes enc cfg metaWidth).getLast? = some (w, q)) ∧
    (findBestEncode enc cfg metaWidth = .error e →
      ∃ w2 q2, enc w2 q2 = .error e) := by
  constructor
  · intro hmem henc
    simp only [findBestEncodeProbes] at hmem
    rcases List.mem_append.mp hmem with hsearch | hfall
    · obtain ⟨hd, hl⟩ := descentLoop_error_at_probe enc cfg _ _ _ _ _ hsearch henc
      refine ⟨?_, ?_⟩
      · simp only [findBestEncode, hd]
      · have hlist : findBestEncodeProbes enc cfg metaWidth =
            searchProbeList enc cfg (startWidth cfg metaWidth)
              (cfg.maxDownscales + 1) := by
          simp only [findBestEncodeProbes, hd, List.append_nil]
        rw [hlist]
        exact hl
    · cases hd : descentLoop enc cfg (startWidth cfg metaWidth)
          (cfg.maxDownscales + 1) with
      | error e0 =>
        simp only [hd] at hfall
        exact absurd hfall (List.not_mem_nil _)
      | ok o =>
        cases o with
        | some r =>
          simp only [hd] at hfall
          exact absurd hfall (List.not_mem_nil _)
        | none =>
          simp only [hd] at hfall
          have hwq : (w, q) = (startWidth cfg metaWidth, cfg.minQ) :=
            List.mem_singleton.mp hfall
          injection hwq with hw hq
          subst hw
          subst hq
          refine ⟨?_, ?_⟩
          · simp only [findBestEncode, hd, henc]
          · simp only [findBestEncodeProbes, hd, List.getLast?_concat]
  · intro hres
    simp only [findBestEncode] at hres
    split at hres
    · rename_i e0 hd
      cases Except.error.inj hres
      exact descentLoop_error_src enc cfg _ _ _ hd
    · exact Except.noConfusion hres
    · split at hres
      · rename_i e0 hf
        cases Except.error.inj hres
        exact ⟨_, _, hf⟩
      · exact Except.noConfusion hres

/-- An encoder that fails on every invocation. -/
def failEnc : Enc Unit := fun _ _ => .error ()

/-- Witness for C7: against the always-failing encoder, the sole invocation
performed — quality 80 at width 1000 — fails, the search returns exactly that
error, and that invocation is the last element of the probe trace. -/
theorem findBestEncode_error_propagation_witness :
    findBestEncode failEnc ⟨80, 1600, 65, 95, 4, 9, 10⟩ 1000 = .error () ∧
    (findBestEncodeProbes failEnc ⟨80, 1600, 65, 95, 4, 9, 10⟩ 1000).getLast? =
      some (1000, 80) :=
  (findBestEncode_error_propagation failEnc ⟨80, 1600, 65, 95, 4, 9, 10⟩ 1000
    1000 80 ()).1 (by decide) rfl

/-- C8: every outcome carries its `bestEffort` flag: `false` only together
with a byte length within the target, `true` only for the exhausted-search
fallback (encode at `minQ` and the starting width). -/
theorem findBestEncode_flag (enc : Enc ε) (cfg : Config) (metaWidth : Nat)
    (r : EncodeResult) (hres : findBestEncode enc cfg metaWidth = .ok r) :
    (r.bestEffort = false ∧ r.bytes ≤ cfg.targetBytes) ∨
    (r.bestEffort = true ∧ r.quality = cfg.minQ ∧
      r.width = startWidth cfg metaWidth) := by
  simp only [findBestEncode] at hres
  split at hres
  · exact Except.noConfusion hres
  · rename_i best hbest
    cases Except.ok.inj hres
    obtain ⟨hb, he⟩ := descentLoop_ok_some enc cfg _ _ _ hbest
    exact Or.inl ⟨he, hb⟩
  · split at hres
    · exact Except.noConfusion hres
    · cases Except.ok.inj hres
      exact Or.inr ⟨rfl, rfl, rfl⟩

/-- Witness for C8: the qualifying outcome of the synthetic monotone encoder
carries `bestEffort = false` and fits the target. -/
theorem findBestEncode_flag_witness :
    ((⟨List.replicate 80 0, 1000, 80, 80, false⟩ : EncodeResult).bestEffort = false ∧
      (⟨List.replicate 80 0, 1000, 80, 80, false⟩ : EncodeResult).bytes ≤ 80) ∨
    ((⟨List.replicate 80 0, 1000, 80, 80, false⟩ : EncodeResult).bestEffort = true ∧
      (⟨List.replicate 80 0, 1000, 80, 80, false⟩ : EncodeResult).quality = 65 ∧
      (⟨List.replicate 80 0, 1000, 80, 80, false⟩ : EncodeResult).width =
        startWidth ⟨80, 1600, 65, 95, 4, 9, 10⟩ 1000) :=
  findBestEncode_flag (sizedEnc fun _ q => q.toNat) ⟨80, 1600, 65, 95, 4, 9, 10⟩
    1000 ⟨List.replicate 80 0, 1000, 80, 80, false⟩ (by decide)

/-- C9: `findBestEncode` is a pure function of the encoder, the configuration
and the natural width — it reads no other state — so two runs with identical
inputs and the same deterministic encoder return bit-identical outcomes. -/
theorem findBestEncode_deterministic (enc : Enc ε) (cfg : Config)
    (metaWidth : Nat) (r₁ r₂ : EncodeResult)
    (h₁ : findBestEncode enc cfg metaWidth = .ok r₁)
    (h₂ : findBestEncode enc cfg metaWidth = .ok r₂) :
    r₁.buf = r₂.buf ∧ r₁.bytes = r₂.bytes ∧ r₁.width = r₂.width ∧
    r₁.quality = r₂.quality ∧ r₁.bestEffort = r₂.bestEffort := by
  cases Except.ok.inj (h₁.symm.trans h₂)
  exact ⟨rfl, rfl, rfl, rfl, rfl⟩

/-- Witness for C9 on the synthetic monotone encoder. -/
theorem findBestEncode_deterministic_witness :
    (⟨List.replicate 80 0, 1000, 80, 80, false⟩ : EncodeResult).buf =
      (⟨List.replicate 80 0, 1000, 80, 80, false⟩ : EncodeResult).buf ∧
    (⟨List.replicate 80 0, 1000, 80, 80, false⟩ : EncodeResult).bytes =
      (⟨List.replicate 80 0, 1000, 80, 80, false⟩ : EncodeResult).bytes ∧
    (⟨List.replicate 80 0, 1000, 80, 80, false⟩ : EncodeResult).width =
      (⟨List.replicate 80 0, 1000, 80, 80, false⟩ : EncodeResult).width ∧
    (⟨List.replicate 80 0, 1000, 80, 80, false⟩ : EncodeResult).quality =
      (⟨List.replicate 80 0, 1000, 80, 80, false⟩ : EncodeResult).quality ∧
    (⟨List.replicate 80 0, 1000, 80, 80, false⟩ : EncodeResult).bestEffort =
      (⟨List.replicate 80 0, 1000, 80, 80, false⟩ : EncodeResult).bestEffort :=
  findBestEncode_deterministic (sizedEnc fun _ q => q.toNat)
    ⟨80, 1600, 65, 95, 4, 9, 10⟩ 1000 ⟨List.replicate 80 0, 1000, 80, 80, false⟩
    ⟨List.replicate 80 0, 1000, 80, 80, false⟩ (by decide) (by decide)

/-- C10: a falsy natural width (`metaWidth = 0`, covering missing and zero
metadata) makes the call behave exactly as if the natural width were
`maxWidth`: the starting width of the descent — also the width of the
best-effort fallback encode — becomes `min(maxWidth, maxWidth) = maxWidth`,
and the search proceeds normally rather than failing. -/
theorem findBestEncode_falsy_metaWidth (enc : Enc ε) (cfg : Config) :
    startWidth cfg 0 = cfg.maxWidth ∧
    findBestEncode enc cfg 0 = findBestEncode enc cfg cfg.maxWidth := by
  have h : startWidth cfg 0 = startWidth cfg cfg.maxWidth := by
    simp [startWidth]
  constructor
  · simp [startWidth]
  · simp only [findBestEncode, h]
